import Mathlib

/-!
# Verification of the consensus-clustering engine (`src/algorithms/monti.py`)

Shallow embedding of `ConsensusCluster` from `monti.py` over exact rational
arithmetic.  Matrices are functions `Fin N → Fin N → ℚ`; the outcome of one
resampling trial (the row indices drawn by `util.resample` together with the
label vector returned by the clustering primitive's `fit_predict`) is a
`Trial`.  The clustering primitive and the random resampler are external
collaborators, so `fit` is embedded as a function of the list of trial
outcomes for each candidate cluster count.

`util.resample` itself is not part of the repository sources available here;
its output size is modelled from the spec (`⌈proportion · N⌉` indices drawn
without replacement).
-/

namespace Monti

/-- An N×N real matrix, the shape used for `Mk[i_]` and `Is` in `monti.py`
(`np.zeros((N, N))`).  Entries are exact rationals. -/
abbrev Mat (N : ℕ) := Fin N → Fin N → ℚ

/-- The all-zero matrix `np.zeros((N, N))`. -/
def zeroM (N : ℕ) : Mat N := fun _ _ => 0

/-- The outcome of one resampling trial in `fit` / `fit_from_cfg`:
`indices` is `resampled_indices` (original row indices returned by
`util.resample`, drawn without replacement), `labels` is `Mh`, the label
vector produced by the clustering primitive on the resampled rows
(one label per resampled row). -/
structure Trial (N : ℕ) where
  indices : List (Fin N)
  labels : List ℕ
deriving DecidableEq

/-- The (original row index, label) pairs of one trial: position `p` of the
resample contributes `(resampled_indices[p], Mh[p])`. -/
def Trial.entries {N : ℕ} (t : Trial N) : List (Fin N × ℕ) :=
  t.indices.zip t.labels

/-- `list(combinations(l, 2))`: all ordered pairs `(l[p], l[q])` with
`p < q`, in the order Python's `itertools.combinations` emits them. -/
def pairsOf {α : Type} : List α → List (α × α)
  | [] => []
  | x :: xs => (xs.map fun y => (x, y)) ++ pairsOf xs

/-- The fancy-indexed increment `M[ids[0], ids[1]] += 1` for a list of index
pairs.  (The pair lists produced by `combinations` of distinct indices have
no duplicate pairs, so the buffered numpy increment and this per-pair fold
agree.) -/
def addPairs {N : ℕ} (M : Mat N) (ps : List (Fin N × Fin N)) : Mat N :=
  ps.foldl (fun A p => fun a b => if a = p.1 ∧ b = p.2 then A a b + 1 else A a b) M

/-- The original row indices of the trial's cluster `i`
(`is_ = resampled_indices[cluster_indices]` in `monti.py`): the entries whose
label equals `i`, in resample order.  (`np.argsort`'s ordering of equal keys
is implementation-defined; it only permutes the members of one cluster, which
can flip which of the two cells `(a,b)` / `(b,a)` a pair increments, and every
quantity the engine exposes is invariant under that flip because the matrices
are symmetrised before use.) -/
def clusterMembers {N : ℕ} (t : Trial N) (i : ℕ) : List (Fin N) :=
  ((t.entries.filter fun p => p.2 = i).map Prod.fst)

/-- The co-association increments of one trial of `fit` at candidate count
`k`: `for i in range(k): Mk[i_, ids_[0], ids_[1]] += 1` over all unordered
pairs of cluster `i`'s original row indices. -/
def accumTrial {N : ℕ} (k : ℕ) (t : Trial N) (M : Mat N) : Mat N :=
  (List.range k).foldl (fun A i => addPairs A (pairsOf (clusterMembers t i))) M

/-- The inner `for h in range(H)` loop body of `fit`, folded over the list of
trial outcomes: each trial adds its same-cluster pairs to the co-association
accumulator `M` and all pairs of its resampled indices to the co-occurrence
counter `Is` (`Is[ids_2[0], ids_2[1]] += 1`). -/
def runTrials {N : ℕ} (k : ℕ) (ts : List (Trial N)) (M Is : Mat N) : Mat N × Mat N :=
  ts.foldl (fun MI t => (accumTrial k t MI.1, addPairs MI.2 (pairsOf t.indices))) (M, Is)

/-- The epsilon guard `1e-8` of the normalising division. -/
def eps : ℚ := 1 / 100000000

/-- The post-trial normalisation of `fit` / `fit_from_cfg`:
`Is += Is.T`, `Mk[i_] /= Is + 1e-8`, `Mk[i_] += Mk[i_].T`,
`Mk[i_] += np.eye(N)`. -/
def finalize {N : ℕ} (M Is : Mat N) : Mat N :=
  let IsS : Mat N := fun a b => Is a b + Is b a
  let C : Mat N := fun a b => M a b / (IsS a b + eps)
  let CS : Mat N := fun a b => C a b + C b a
  fun a b => CS a b + (if a = b then (1 : ℚ) else 0)

/-- One iteration of the outer `for k in range(self.L_, self.K_)` loop of
`fit`: run the `H` trials for count `k` starting from a zero co-association
slice and the incoming `Is` buffer, normalise, and reset the buffer
(`Is.fill(0)`).  Returns the consensus matrix for count `k` and the `Is`
buffer handed to the next iteration. -/
def fitIter {N : ℕ} (k : ℕ) (ts : List (Trial N)) (Is : Mat N) : Mat N × Mat N :=
  let MI := runTrials k ts (zeroM N) Is
  (finalize MI.1 MI.2, zeroM N)

/-- The outer loop of `fit` over the candidate counts, threading the shared
`Is` buffer exactly as the Python code does (zeroed once before the loop,
refilled and re-zeroed inside each iteration). -/
def fitLoop {N : ℕ} (trials : ℕ → List (Trial N)) :
    List ℕ → Mat N → List (Mat N) × Mat N
  | [], Is => ([], Is)
  | k :: ks, Is =>
    let CI := fitIter k (trials k) Is
    let rest := fitLoop trials ks CI.2
    (CI.1 :: rest.1, rest.2)

/-- `range(self.L_, self.K_)`: the candidate cluster counts. -/
def candidateCounts (L K : ℕ) : List ℕ := List.range' L (K - L)

/-- `self.Mk` after `fit`: one consensus matrix per candidate count, where
`trials k` is the list of the `H` trial outcomes drawn while at count `k`. -/
def fitMk (N L K : ℕ) (trials : ℕ → List (Trial N)) : List (Mat N) :=
  (fitLoop trials (candidateCounts L K) (zeroM N)).1

/-- `m.ravel()`: all `N·N` entries of the matrix in row-major order. -/
def ravel {N : ℕ} (m : Mat N) : List ℚ :=
  ((List.finRange N).map fun a => (List.finRange N).map (m a)).flatten

/-- `a.min()` of a numpy array given as a list (its value on the empty list
is irrelevant: numpy raises there and every use below is on a nonempty
flattened matrix). -/
def listMin : List ℚ → ℚ
  | [] => 0
  | x :: xs => xs.foldl min x

/-- `a.max()`, as `listMin`. -/
def listMax : List ℚ → ℚ
  | [] => 0
  | x :: xs => xs.foldl max x

/-- The lower edge of `np.histogram`'s bin range: the data minimum, pushed
down by `0.5` when the data range is empty (numpy's `_get_outer_edges`). -/
def histLoOf (x : List ℚ) : ℚ :=
  if listMin x = listMax x then listMin x - 1 / 2 else listMin x

/-- The upper edge of `np.histogram`'s bin range. -/
def histHiOf (x : List ℚ) : ℚ :=
  if listMin x = listMax x then listMax x + 1 / 2 else listMax x

/-- The 11 bin edges of `np.histogram(..)` with the default 10 bins:
`np.linspace(lo, hi, 11)`. -/
def histEdges (lo hi : ℚ) : List ℚ :=
  (List.range 11).map fun j => lo + (hi - lo) * j / 10

/-- Whether value `v` falls in bin `j` of the 10-bin histogram: bins are
half-open `[edges[j], edges[j+1])` except the last, which is closed. -/
def inBin (lo hi : ℚ) (j : ℕ) (v : ℚ) : Bool :=
  decide (lo + (hi - lo) * j / 10 ≤ v) &&
    (if j + 1 < 10 then decide (v < lo + (hi - lo) * (j + 1) / 10) else decide (v ≤ hi))

/-- `np.histogram(x, density=True)`'s histogram: per bin, its count divided
by `(total count) · (edge difference)`. -/
def histDensity (x : List ℚ) (lo hi : ℚ) : List ℚ :=
  (List.range 10).map fun j =>
    ((x.countP (inBin lo hi j) : ℚ)) /
      ((x.length : ℚ) * ((lo + (hi - lo) * (j + 1) / 10) - (lo + (hi - lo) * j / 10)))

/-- `np.cumsum` on a list of rationals. -/
def cumsumFrom (s : ℚ) : List ℚ → List ℚ
  | [] => []
  | v :: vs => (s + v) :: cumsumFrom (s + v) vs

/-- `np.cumsum` starting from zero. -/
def cumsum (l : List ℚ) : List ℚ := cumsumFrom 0 l

/-- The stability-curve scalar of one consensus matrix's flattened values:
`hist, bins = np.histogram(m.ravel(), density=True)` followed by
`sum(h * (b - a) for b, a, h in zip(bins[1:], bins[:-1], np.cumsum(hist)))`
(`np.sum` applied to a generator falls back to Python's `sum`). -/
def AkOf (x : List ℚ) : ℚ :=
  let lo := histLoOf x
  let hi := histHiOf x
  let bins := histEdges lo hi
  let hist := histDensity x lo hi
  ((((bins.drop 1).zip bins.dropLast).zip (cumsum hist)).map
    fun p => p.2 * (p.1.1 - p.1.2)).sum

/-- `self.Ak` after `fit`: `AkOf` of each consensus matrix's flattened
values, in candidate-count order. -/
def fitAk (N L K : ℕ) (trials : ℕ → List (Trial N)) : List ℚ :=
  (fitMk N L K trials).map fun m => AkOf (ravel m)

/-- The delta curve built from an `Ak` list:
`[(Ab - Aa) / Aa if i > 2 else Aa for Ab, Aa, i in
  zip(Ak[1:], Ak[:-1], range(L, K - 1))]`. -/
def deltaOf (Ak : List ℚ) (L K : ℕ) : List ℚ :=
  (((Ak.drop 1).zip Ak.dropLast).zip (List.range' L (K - 1 - L))).map
    fun p => if 2 < p.2 then (p.1.1 - p.1.2) / p.1.2 else p.1.2

/-- `self.deltaK` after `fit`. -/
def fitDeltaK (N L K : ℕ) (trials : ℕ → List (Trial N)) : List ℚ :=
  deltaOf (fitAk N L K trials) L K

/-- `np.argmax` on a list: index of the first occurrence of the maximum. -/
def listArgmax : List ℚ → ℕ
  | [] => 0
  | [_] => 0
  | x :: y :: xs => if listMax (y :: xs) ≤ x then 0 else listArgmax (y :: xs) + 1

/-- `self.bestK` after `fit`:
`np.argmax(self.deltaK) + self.L_ if self.deltaK.size > 0 else self.L_`. -/
def fitBestK (N L K : ℕ) (trials : ℕ → List (Trial N)) : ℕ :=
  if 0 < (fitDeltaK N L K trials).length then listArgmax (fitDeltaK N L K trials) + L
  else L

/-- Modelled from the spec: the number of rows drawn by the missing
`util.resample` helper, "size ⌈proportion·N⌉, no replacement". -/
def resampleSize (p : ℚ) (N : ℕ) : ℕ := (⌈p * N⌉).toNat

/-- `fit` as a fallible call.  The Python body raises on the unguarded
`ids_2[0]` (line 80 of `monti.py`) exactly when some executed trial resampled
fewer than two rows — `combinations(resampled_indices, 2)` is then empty and
indexing the empty transposed array fails; since earlier iterations abort the
call, `fit` raises if and only if some trial in the candidate range drew
fewer than two rows, and otherwise returns the full fitted state. -/
def fitE (N L K : ℕ) (trials : ℕ → List (Trial N)) :
    Except Unit (List (Mat N) × List ℚ × List ℚ × ℕ) :=
  if (candidateCounts L K).any (fun k => (trials k).any fun t => decide (t.indices.length < 2))
  then .error ()
  else .ok (fitMk N L K trials, fitAk N L K trials, fitDeltaK N L K trials, fitBestK N L K trials)

/-- `k = len(np.unique(sorted_))` in `fit_from_cfg`: the number of distinct
label values of the trial. -/
def distinctCount {N : ℕ} (t : Trial N) : ℕ := t.labels.dedup.length

/-- The per-trial accumulation of `fit_from_cfg`: the same cluster loop as
`fit`, with the loop bound `k` read off as the trial's distinct label
count. -/
def accumTrialCfg {N : ℕ} (t : Trial N) (M : Mat N) : Mat N :=
  accumTrial (distinctCount t) t M

/-- The trial loop of `fit_from_cfg`. -/
def runTrialsCfg {N : ℕ} (ts : List (Trial N)) (M Is : Mat N) : Mat N × Mat N :=
  ts.foldl (fun MI t => (accumTrialCfg t MI.1, addPairs MI.2 (pairsOf t.indices))) (M, Is)

/-- The single consensus matrix computed by `fit_from_cfg`. -/
def fitFromCfgMk {N : ℕ} (ts : List (Trial N)) : Mat N :=
  let MI := runTrialsCfg ts (zeroM N) (zeroM N)
  finalize MI.1 MI.2

/-- `self.Mk` is a numpy array in both fitted shapes: a
`(K - L, N, N)` tensor after `fit`, an `(N, N)` matrix after
`fit_from_cfg`. -/
inductive MkStore where
  | tensor (N : ℕ) (ms : List (Mat N))
  | single (N : ℕ) (m : Mat N)

/-- The attribute state of a `ConsensusCluster` object.  The clustering
factory `self.cluster_` is an external collaborator with no bearing on the
verified state, kept as a unit placeholder. -/
structure ConsensusCluster where
  cluster : Unit
  L : ℕ
  K : ℕ
  H : ℕ
  resampleProportion : ℚ
  Mk : Option MkStore
  Ak : Option (List ℚ)
  deltaK : Option (List ℚ)
  bestK : Option ℕ
  X : Option Unit

/-- `ConsensusCluster.__init__`: asserts
`0 <= resample_proportion <= 1` and stores the configuration, leaving
`Mk`, `Ak`, `deltaK`, `bestK` (and the data `X`) unset.  No other
parameter is validated. -/
def init (cluster : Unit) (L K H : ℕ) (p : ℚ) : Except String ConsensusCluster :=
  if 0 ≤ p ∧ p ≤ 1 then
    .ok { cluster := cluster, L := L, K := K, H := H, resampleProportion := p,
          Mk := none, Ak := none, deltaK := none, bestK := none, X := none }
  else .error "proportion has to be between 0 and 1"

/-- `fit_from_cfg(data)`: stores the data, runs the single-model trial loop
and stores the resulting consensus matrix in `Mk`; `Ak`, `deltaK` and
`bestK` are not touched.  Like `fit` it raises on the unguarded pair
indexing when a trial resampled fewer than two rows. -/
def fitFromCfg (e : ConsensusCluster) {N : ℕ} (ts : List (Trial N)) :
    Except Unit ConsensusCluster :=
  if ts.any (fun t => decide (t.indices.length < 2)) then .error ()
  else .ok { e with X := some (), Mk := some (.single N (fitFromCfgMk ts)) }

/-- The precondition guard of `predict` (also of `predict_hierarchical`,
`predict_from_tuned`, `predict_data`):
`assert self.Mk is not None, "First run fit"` — it inspects only `Mk`. -/
def predictGuard (e : ConsensusCluster) : Bool := e.Mk.isSome

/-! ## Counting lemmas for the accumulator folds -/

section Counting

variable {α : Type} [DecidableEq α]

/-- Occurrence count, used to read the increment folds off as counts. -/
def cnt (x : α) (l : List α) : ℕ := l.countP fun y => y = x

lemma cnt_nil (x : α) : cnt x ([] : List α) = 0 := rfl

lemma cnt_cons (x y : α) (l : List α) :
    cnt x (y :: l) = cnt x l + if y = x then 1 else 0 := by
  simp [cnt, List.countP_cons]

lemma cnt_append (x : α) (la lb : List α) :
    cnt x (la ++ lb) = cnt x la + cnt x lb := by
  simp [cnt, List.countP_append]

lemma cnt_eq_zero_of_not_mem {x : α} {l : List α} (h : x ∉ l) : cnt x l = 0 := by
  induction l with
  | nil => rfl
  | cons y ys ih =>
    rw [cnt_cons, ih fun hm => h (List.mem_cons_of_mem _ hm), if_neg]
    · intro hy
      exact h (by rw [hy]; exact List.mem_cons_self _ _)

lemma cnt_eq_one_of_nodup_mem {x : α} {l : List α} (hn : l.Nodup) (hm : x ∈ l) :
    cnt x l = 1 := by
  induction l with
  | nil => cases hm
  | cons y ys ih =>
    rw [cnt_cons]
    rcases List.mem_cons.mp hm with h | h
    · rw [cnt_eq_zero_of_not_mem (h ▸ (List.nodup_cons.mp hn).1), if_pos h.symm]
    · rw [ih (List.nodup_cons.mp hn).2 h, if_neg]
      intro hy
      exact (List.nodup_cons.mp hn).1 (hy ▸ h)

lemma cnt_nodup (hn : l.Nodup) (x : α) :
    cnt x l = if x ∈ l then 1 else 0 := by
  by_cases hm : x ∈ l
  · rw [cnt_eq_one_of_nodup_mem hn hm, if_pos hm]
  · rw [cnt_eq_zero_of_not_mem hm, if_neg hm]

lemma cnt_map_pair {β : Type} [DecidableEq β] (x a : α) (b : β) (ys : List β) :
    cnt (a, b) (ys.map fun y => (x, y)) = if x = a then cnt b ys else 0 := by
  by_cases hx : x = a
  · subst hx
    rw [if_pos rfl]
    induction ys with
    | nil => simp [cnt_nil]
    | cons y ys ih => simp [cnt_cons, ih, Prod.ext_iff]
  · rw [if_neg hx]
    apply cnt_eq_zero_of_not_mem
    intro hmem
    rcases List.mem_map.mp hmem with ⟨y, _, hy⟩
    exact hx (congrArg Prod.fst hy)

end Counting

/-! ## Unordered-pair extraction -/

section Pairs

variable {α : Type} [DecidableEq α]

omit [DecidableEq α] in
lemma mem_pairsOf {l : List α} {p : α × α} (h : p ∈ pairsOf l) :
    p.1 ∈ l ∧ p.2 ∈ l := by
  induction l with
  | nil => cases h
  | cons x xs ih =>
    rcases List.mem_append.mp h with h | h
    · rcases List.mem_map.mp h with ⟨y, hy, rfl⟩
      exact ⟨List.mem_cons_self _ _, List.mem_cons_of_mem _ hy⟩
    · exact ⟨List.mem_cons_of_mem _ (ih h).1, List.mem_cons_of_mem _ (ih h).2⟩

lemma cnt_pairsOf_left_zero {l : List α} {a b : α} (h : a ∉ l) :
    cnt (a, b) (pairsOf l) = 0 := by
  apply cnt_eq_zero_of_not_mem
  intro hm
  exact h (mem_pairsOf hm).1

lemma cnt_pairsOf_right_zero {l : List α} {a b : α} (h : b ∉ l) :
    cnt (a, b) (pairsOf l) = 0 := by
  apply cnt_eq_zero_of_not_mem
  intro hm
  exact h (mem_pairsOf hm).2

/-- In the pair list of a duplicate-free index list no index is paired with
itself: a singleton cluster contributes no diagonal increment. -/
lemma cnt_pairsOf_diag {l : List α} (hn : l.Nodup) (a : α) :
    cnt (a, a) (pairsOf l) = 0 := by
  induction l with
  | nil => rfl
  | cons x xs ih =>
    rw [pairsOf, cnt_append, cnt_map_pair, ih (List.nodup_cons.mp hn).2]
    by_cases hx : x = a
    · rw [if_pos hx, cnt_eq_zero_of_not_mem (hx ▸ (List.nodup_cons.mp hn).1)]
    · rw [if_neg hx]

/-- Each unordered pair of a duplicate-free list is extracted exactly once,
as `(a, b)` or as `(b, a)`: `combinations` does not double count. -/
lemma cnt_pairsOf_pair {l : List α} (hn : l.Nodup) {a b : α} (hab : a ≠ b) :
    cnt (a, b) (pairsOf l) + cnt (b, a) (pairsOf l)
      = if a ∈ l ∧ b ∈ l then 1 else 0 := by
  induction l with
  | nil => simp [pairsOf, cnt_nil]
  | cons x xs ih =>
    have hx : x ∉ xs := (List.nodup_cons.mp hn).1
    have hxs : xs.Nodup := (List.nodup_cons.mp hn).2
    rw [pairsOf, cnt_append, cnt_append, cnt_map_pair, cnt_map_pair]
    by_cases ha : x = a
    · subst ha
      rw [if_pos rfl, if_neg hab, cnt_pairsOf_left_zero hx,
        cnt_pairsOf_right_zero hx, cnt_nodup hxs]
      by_cases hb : b ∈ xs <;>
        simp [hb, hab.symm, List.mem_cons, hx]
    · by_cases hb : x = b
      · subst hb
        rw [if_pos rfl, if_neg ha, cnt_pairsOf_right_zero hx,
          cnt_pairsOf_left_zero hx, cnt_nodup hxs]
        by_cases hax : a ∈ xs <;>
          simp [hax, ha, Ne.symm ha, List.mem_cons, hx]
      · rw [if_neg ha, if_neg hb, zero_add, zero_add, ih hxs]
        simp [List.mem_cons, Ne.symm ha, Ne.symm hb]

end Pairs

/-! ## Reading the increment folds as counts -/

variable {N : ℕ}

lemma addPairs_apply (M : Mat N) (ps : List (Fin N × Fin N)) (a b : Fin N) :
    addPairs M ps a b = M a b + (cnt (a, b) ps : ℚ) := by
  induction ps generalizing M with
  | nil => simp [addPairs, cnt_nil]
  | cons p ps ih =>
    simp only [addPairs, List.foldl_cons] at ih ⊢
    rw [ih, cnt_cons]
    by_cases hp : a = p.1 ∧ b = p.2
    · rw [if_pos hp, if_pos (by cases p; cases hp.1; cases hp.2; rfl)]
      push_cast
      ring
    · rw [if_neg hp, if_neg fun h => hp (by cases h; exact ⟨rfl, rfl⟩), Nat.cast_add]
      ring

/-- The total co-association increment one `fit` trial at count `k`
contributes to cell `(a, b)`: the pair may appear in at most one of the `k`
cluster loops. -/
def clusterPairCount (k : ℕ) (t : Trial N) (a b : Fin N) : ℕ :=
  ((List.range k).map fun i => cnt (a, b) (pairsOf (clusterMembers t i))).sum

lemma foldl_addPairs_apply (g : ℕ → List (Fin N × Fin N)) (is : List ℕ) (M : Mat N)
    (a b : Fin N) :
    (is.foldl (fun A i => addPairs A (g i)) M) a b
      = M a b + (((is.map fun i => cnt (a, b) (g i)).sum : ℕ) : ℚ) := by
  induction is generalizing M with
  | nil => simp
  | cons i is ih =>
    rw [List.foldl_cons, ih, addPairs_apply, List.map_cons, List.sum_cons]
    push_cast
    ring

lemma accumTrial_apply (k : ℕ) (t : Trial N) (M : Mat N) (a b : Fin N) :
    accumTrial k t M a b = M a b + (clusterPairCount k t a b : ℚ) :=
  foldl_addPairs_apply _ _ M a b

/-- Total same-cluster co-association count of cell `(a, b)` over a list of
trials. -/
def coClusterCount (k : ℕ) (ts : List (Trial N)) (a b : Fin N) : ℕ :=
  (ts.map fun t => clusterPairCount k t a b).sum

/-- Total co-occurrence count of cell `(a, b)` over a list of trials. -/
def coResampleCount (ts : List (Trial N)) (a b : Fin N) : ℕ :=
  (ts.map fun t => cnt (a, b) (pairsOf t.indices)).sum

lemma runTrials_fst_apply (k : ℕ) (ts : List (Trial N)) (M Is : Mat N) (a b : Fin N) :
    (runTrials k ts M Is).1 a b = M a b + (coClusterCount k ts a b : ℚ) := by
  induction ts generalizing M Is with
  | nil => simp [runTrials, coClusterCount]
  | cons t ts ih =>
    simp only [runTrials, List.foldl_cons] at ih ⊢
    rw [ih, accumTrial_apply]
    simp only [coClusterCount, List.map_cons, List.sum_cons]
    push_cast
    ring

lemma runTrials_snd_apply (k : ℕ) (ts : List (Trial N)) (M Is : Mat N) (a b : Fin N) :
    (runTrials k ts M Is).2 a b = Is a b + (coResampleCount ts a b : ℚ) := by
  induction ts generalizing M Is with
  | nil => simp [runTrials, coResampleCount]
  | cons t ts ih =>
    simp only [runTrials, List.foldl_cons] at ih ⊢
    rw [ih, addPairs_apply]
    simp only [coResampleCount, List.map_cons, List.sum_cons]
    push_cast
    ring

/-! ## Cluster membership -/

lemma map_fst_zip_sublist {α β : Type} (as : List α) (bs : List β) :
    List.Sublist ((as.zip bs).map Prod.fst) as := by
  induction as generalizing bs with
  | nil => simp
  | cons x xs ih =>
    cases bs with
    | nil => simp
    | cons y ys =>
      rw [List.zip_cons_cons, List.map_cons]
      exact (ih ys).cons₂ x

lemma clusterMembers_sublist (t : Trial N) (i : ℕ) :
    List.Sublist (clusterMembers t i) t.indices :=
  ((List.filter_sublist _).map Prod.fst).trans (map_fst_zip_sublist _ _)

lemma clusterMembers_nodup {t : Trial N} (h : t.indices.Nodup) (i : ℕ) :
    (clusterMembers t i).Nodup :=
  (clusterMembers_sublist t i).nodup h

lemma mem_clusterMembers {t : Trial N} {a : Fin N} {i : ℕ} :
    a ∈ clusterMembers t i ↔ (a, i) ∈ t.entries := by
  constructor
  · intro h
    rcases List.mem_map.mp h with ⟨p, hp, rfl⟩
    rcases List.mem_filter.mp hp with ⟨hpe, hpi⟩
    have hsnd : p.2 = i := by simpa using hpi
    obtain ⟨p1, p2⟩ := p
    cases hsnd
    exact hpe
  · intro h
    exact List.mem_map.mpr ⟨(a, i), List.mem_filter.mpr ⟨h, by simp⟩, rfl⟩

lemma fst_nodup_unique {α β : Type} {l : List (α × β)} (h : (l.map Prod.fst).Nodup)
    {a : α} {i j : β} (hi : (a, i) ∈ l) (hj : (a, j) ∈ l) : i = j := by
  induction l with
  | nil => cases hi
  | cons p ps ih =>
    have hhead : p.1 ∉ ps.map Prod.fst := (List.nodup_cons.mp (by simpa using h)).1
    rcases List.mem_cons.mp hi with rfl | hi'
    · rcases List.mem_cons.mp hj with h2 | hj'
      · exact (congrArg Prod.snd h2).symm
      · exact absurd (List.mem_map.mpr ⟨(a, j), hj', rfl⟩) hhead
    · rcases List.mem_cons.mp hj with rfl | hj'
      · exact absurd (List.mem_map.mpr ⟨(a, i), hi', rfl⟩) hhead
      · exact ih (by simpa using (List.nodup_cons.mp (by simpa using h)).2) hi' hj'

lemma label_unique {t : Trial N} (h : t.indices.Nodup) {a : Fin N} {i j : ℕ}
    (hi : (a, i) ∈ t.entries) (hj : (a, j) ∈ t.entries) : i = j :=
  fst_nodup_unique ((map_fst_zip_sublist _ _).nodup h) hi hj

lemma mem_entries_left {t : Trial N} {a : Fin N} {i : ℕ} (h : (a, i) ∈ t.entries) :
    a ∈ t.indices :=
  (List.of_mem_zip h).1

/-! ## Per-trial pair counts -/

lemma sum_map_add {α : Type} (l : List α) (f g : α → ℕ) :
    (l.map f).sum + (l.map g).sum = (l.map fun x => f x + g x).sum := by
  induction l with
  | nil => rfl
  | cons x xs ih =>
    simp only [List.map_cons, List.sum_cons, ← ih]
    ring

lemma sum_map_range_ite_unique {P : ℕ → Prop} [DecidablePred P]
    (hu : ∀ i j, P i → P j → i = j) (k : ℕ) :
    ((List.range k).map fun i => if P i then (1 : ℕ) else 0).sum
      = if ∃ j, j < k ∧ P j then 1 else 0 := by
  induction k with
  | zero => simp
  | succ k ih =>
    rw [List.range_succ, List.map_append, List.sum_append, ih]
    by_cases hk : P k
    · have hnone : ¬∃ j, j < k ∧ P j := by
        rintro ⟨j, hj, hPj⟩
        exact absurd (hu j k hPj hk) (Nat.ne_of_lt hj)
      rw [if_neg hnone, if_pos ⟨k, Nat.lt_succ_self k, hk⟩]
      simp [hk]
    · have hiff : (∃ j, j < k + 1 ∧ P j) ↔ ∃ j, j < k ∧ P j := by
        constructor
        · rintro ⟨j, hj, hPj⟩
          rcases Nat.lt_succ_iff_lt_or_eq.mp hj with h | rfl
          · exact ⟨j, h, hPj⟩
          · exact absurd hPj hk
        · rintro ⟨j, hj, hPj⟩
          exact ⟨j, Nat.lt_succ_of_lt hj, hPj⟩
      simp [hiff, hk]

/-- One trial of `fit` at count `k` increments the cells `(a, b)` and
`(b, a)` together exactly once when `a` and `b` share a cluster whose label
is below `k`, and not at all otherwise. -/
lemma clusterPairCount_add {t : Trial N} (hnd : t.indices.Nodup) {a b : Fin N}
    (hab : a ≠ b) (k : ℕ) :
    clusterPairCount k t a b + clusterPairCount k t b a
      = if ∃ j, j < k ∧ (a, j) ∈ t.entries ∧ (b, j) ∈ t.entries then 1 else 0 := by
  have hpt : ∀ i : ℕ,
      cnt (a, b) (pairsOf (clusterMembers t i)) + cnt (b, a) (pairsOf (clusterMembers t i))
        = if (a, i) ∈ t.entries ∧ (b, i) ∈ t.entries then (1 : ℕ) else 0 := by
    intro i
    rw [cnt_pairsOf_pair (clusterMembers_nodup hnd i) hab]
    simp [mem_clusterMembers]
  rw [clusterPairCount, clusterPairCount, sum_map_add]
  rw [List.map_congr_left fun i _ => hpt i]
  exact sum_map_range_ite_unique
    (fun i j hi hj => label_unique hnd hi.1 hj.1) k

/-- A trial contributes nothing to the diagonal: singleton pairs never form. -/
lemma clusterPairCount_diag {t : Trial N} (hnd : t.indices.Nodup) (k : ℕ) (a : Fin N) :
    clusterPairCount k t a a = 0 := by
  apply List.sum_eq_zero
  intro x hx
  rcases List.mem_map.mp hx with ⟨i, _, rfl⟩
  exact cnt_pairsOf_diag (clusterMembers_nodup hnd i) a

lemma cnt_pairsOf_indices_diag {t : Trial N} (hnd : t.indices.Nodup) (a : Fin N) :
    cnt (a, a) (pairsOf t.indices) = 0 :=
  cnt_pairsOf_diag hnd a

/-- Over any trial list with duplicate-free resamples, same-cluster
co-association counts never exceed co-occurrence counts (cell pairs taken
together). -/
lemma coClusterCount_le {ts : List (Trial N)} (hnd : ∀ t ∈ ts, t.indices.Nodup)
    {a b : Fin N} (hab : a ≠ b) (k : ℕ) :
    coClusterCount k ts a b + coClusterCount k ts b a
      ≤ coResampleCount ts a b + coResampleCount ts b a := by
  induction ts with
  | nil => simp [coClusterCount, coResampleCount]
  | cons t ts ih =>
    have hndt : t.indices.Nodup := hnd t (List.mem_cons_self _ _)
    have h1 : clusterPairCount k t a b + clusterPairCount k t b a
        ≤ cnt (a, b) (pairsOf t.indices) + cnt (b, a) (pairsOf t.indices) := by
      rw [clusterPairCount_add hndt hab, cnt_pairsOf_pair hndt hab]
      by_cases hsh : ∃ j, j < k ∧ (a, j) ∈ t.entries ∧ (b, j) ∈ t.entries
      · rcases hsh with ⟨j, _, hja, hjb⟩
        rw [if_pos ⟨j, ‹_›, hja, hjb⟩, if_pos ⟨mem_entries_left hja, mem_entries_left hjb⟩]
      · rw [if_neg hsh]
        exact Nat.zero_le _
    have h2 := ih fun u hu => hnd u (List.mem_cons_of_mem _ hu)
    simp only [coClusterCount, coResampleCount, List.map_cons, List.sum_cons] at h2 ⊢
    omega

lemma coClusterCount_diag {ts : List (Trial N)} (hnd : ∀ t ∈ ts, t.indices.Nodup)
    (k : ℕ) (a : Fin N) :
    coClusterCount k ts a a = 0 := by
  apply List.sum_eq_zero
  intro x hx
  rcases List.mem_map.mp hx with ⟨t, ht, rfl⟩
  exact clusterPairCount_diag (hnd t ht) k a

/-! ## The consensus matrices of `fit` -/

lemma finalize_apply (M Is : Mat N) (a b : Fin N) :
    finalize M Is a b
      = M a b / (Is a b + Is b a + eps) + M b a / (Is b a + Is a b + eps)
        + (if a = b then (1 : ℚ) else 0) :=
  rfl

lemma finalize_symm (M Is : Mat N) (a b : Fin N) :
    finalize M Is a b = finalize M Is b a := by
  rw [finalize_apply, finalize_apply]
  by_cases hab : a = b
  · subst hab
    ring
  · rw [if_neg hab, if_neg (Ne.symm hab)]
    ring

lemma finalize_diag (M Is : Mat N) (a : Fin N) (hMa : M a a = 0) :
    finalize M Is a a = 1 := by
  rw [finalize_apply, hMa]
  simp

lemma fitIter_fst (k : ℕ) (ts : List (Trial N)) :
    (fitIter k ts (zeroM N)).1
      = finalize (fun a b => (coClusterCount k ts a b : ℚ))
          (fun a b => (coResampleCount ts a b : ℚ)) := by
  have h1 : (runTrials k ts (zeroM N) (zeroM N)).1
      = fun a b => (coClusterCount k ts a b : ℚ) := by
    funext a b
    rw [runTrials_fst_apply]
    simp [zeroM]
  have h2 : (runTrials k ts (zeroM N) (zeroM N)).2
      = fun a b => (coResampleCount ts a b : ℚ) := by
    funext a b
    rw [runTrials_snd_apply]
    simp [zeroM]
  show finalize (runTrials k ts (zeroM N) (zeroM N)).1 (runTrials k ts (zeroM N) (zeroM N)).2 = _
  rw [h1, h2]

lemma fitLoop_fst_eq_map (trials : ℕ → List (Trial N)) (ks : List ℕ) :
    (fitLoop trials ks (zeroM N)).1
      = ks.map fun k => (fitIter k (trials k) (zeroM N)).1 := by
  induction ks with
  | nil => rfl
  | cons k ks ih =>
    show (fitIter k (trials k) (zeroM N)).1 :: (fitLoop trials ks (zeroM N)).1 = _
    rw [List.map_cons, ih]

/-- The `Is` buffer is zero at the start of every candidate count's trials
(zeroed before the loop, `Is.fill(0)` at the end of each iteration), so each
consensus matrix is a function of its own candidate count's trials alone. -/
lemma fitMk_eq_map (L K : ℕ) (trials : ℕ → List (Trial N)) :
    fitMk N L K trials
      = (candidateCounts L K).map fun k => (fitIter k (trials k) (zeroM N)).1 :=
  fitLoop_fst_eq_map trials (candidateCounts L K)

lemma mem_fitMk {L K : ℕ} {trials : ℕ → List (Trial N)} {m : Mat N}
    (h : m ∈ fitMk N L K trials) :
    ∃ k ∈ candidateCounts L K,
      m = finalize (fun a b => (coClusterCount k (trials k) a b : ℚ))
            (fun a b => (coResampleCount (trials k) a b : ℚ)) := by
  rw [fitMk_eq_map] at h
  rcases List.mem_map.mp h with ⟨k, hk, rfl⟩
  exact ⟨k, hk, fitIter_fst k (trials k)⟩

/-- Entry bounds for a consensus matrix built from duplicate-free trials. -/
lemma finalize_counts_mem_unit {k : ℕ} {ts : List (Trial N)}
    (hnd : ∀ t ∈ ts, t.indices.Nodup) (a b : Fin N) :
    0 ≤ finalize (fun a b => (coClusterCount k ts a b : ℚ))
          (fun a b => (coResampleCount ts a b : ℚ)) a b ∧
      finalize (fun a b => (coClusterCount k ts a b : ℚ))
          (fun a b => (coResampleCount ts a b : ℚ)) a b ≤ 1 := by
  by_cases hab : a = b
  · subst hab
    rw [finalize_diag _ _ a (by rw [coClusterCount_diag hnd k a]; norm_num)]
    norm_num
  · rw [finalize_apply, if_neg hab, add_zero,
      add_comm ((coResampleCount ts b a : ℚ)) ((coResampleCount ts a b : ℚ)),
      div_add_div_same]
    set X : ℚ := (coClusterCount k ts a b : ℚ) + (coClusterCount k ts b a : ℚ) with hX
    set D : ℚ := (coResampleCount ts a b : ℚ) + (coResampleCount ts b a : ℚ) with hD
    have hXnn : 0 ≤ X := by
      rw [hX]
      positivity
    have hDnn : 0 ≤ D := by
      rw [hD]
      positivity
    have heps : (0 : ℚ) < eps := by norm_num [eps]
    have hXD : X ≤ D := by
      rw [hX, hD]
      push_cast [← Nat.cast_add]
      exact_mod_cast coClusterCount_le hnd hab k
    constructor
    · exact div_nonneg hXnn (by linarith)
    · rw [div_le_one (by linarith)]
      linarith

/-! ## Claim theorems: consensus-matrix invariants -/

/-- A concrete trial oracle used to instantiate hypotheses: every candidate
count gets one trial that resampled rows 0 and 1 and put both in cluster 0. -/
def trialsW : ℕ → List (Trial 2) := fun _ => [⟨[0, 1], [0, 0]⟩]

/-- C1: after any successful `fit(data)` on an N-row matrix, every stored
consensus matrix `Mk[k - L]` is symmetric and every diagonal entry equals
exactly 1 (rows are resampled without replacement, so each trial's index
list is duplicate-free). -/
theorem monti_C1 (N L K : ℕ) (trials : ℕ → List (Trial N))
    (hnd : ∀ k ∈ candidateCounts L K, ∀ t ∈ trials k, t.indices.Nodup) :
    ∀ m ∈ fitMk N L K trials, (∀ a b, m a b = m b a) ∧ ∀ a, m a a = 1 := by
  intro m hm
  rcases mem_fitMk hm with ⟨k, hk, rfl⟩
  refine ⟨fun a b => finalize_symm _ _ a b, fun a => finalize_diag _ _ a ?_⟩
  show ((coClusterCount k (trials k) a a : ℕ) : ℚ) = 0
  rw [coClusterCount_diag (hnd k hk) k a]
  norm_num

theorem monti_C1_witness :
    (∀ k ∈ candidateCounts 2 4, ∀ t ∈ trialsW k, t.indices.Nodup) ∧
      ∀ m ∈ fitMk 2 2 4 trialsW, (∀ a b, m a b = m b a) ∧ ∀ a, m a a = 1 :=
  ⟨by decide, monti_C1 2 2 4 trialsW (by decide)⟩

/-- C2: after any successful `fit(data)`, every consensus-matrix entry lies
in `[0, 1]`; with exact arithmetic the `1e-8` guard keeps off-diagonal
entries strictly below 1, so the bound holds outright. -/
theorem monti_C2 (N L K : ℕ) (trials : ℕ → List (Trial N))
    (hnd : ∀ k ∈ candidateCounts L K, ∀ t ∈ trials k, t.indices.Nodup) :
    ∀ m ∈ fitMk N L K trials, ∀ a b, 0 ≤ m a b ∧ m a b ≤ 1 := by
  intro m hm a b
  rcases mem_fitMk hm with ⟨k, hk, rfl⟩
  exact finalize_counts_mem_unit (hnd k hk) a b

theorem monti_C2_witness :
    (∀ k ∈ candidateCounts 2 4, ∀ t ∈ trialsW k, t.indices.Nodup) ∧
      ∀ m ∈ fitMk 2 2 4 trialsW, ∀ a b, 0 ≤ m a b ∧ m a b ≤ 1 :=
  ⟨by decide, monti_C2 2 2 4 trialsW (by decide)⟩

/-- C8: the co-occurrence counter `Is` is zero at the start of each candidate
count's trials (it is zeroed before the outer loop and `Is.fill(0)`-reset at
the end of every iteration), so each stored consensus matrix is computed
from a zero counter and depends only on its own candidate count's trials. -/
theorem monti_C8 (N L K : ℕ) (trials : ℕ → List (Trial N)) :
    (fitMk N L K trials
        = (candidateCounts L K).map fun k => (fitIter k (trials k) (zeroM N)).1) ∧
      ∀ (t1 t2 : ℕ → List (Trial N)) (k : ℕ), k ∈ candidateCounts L K →
        t1 k = t2 k → (fitMk N L K t1)[k - L]? = (fitMk N L K t2)[k - L]? := by
  refine ⟨fitMk_eq_map L K trials, fun t1 t2 k hk ht => ?_⟩
  have hkL : L ≤ k ∧ k < L + (K - L) := List.mem_range'_1.mp hk
  have hlt : k - L < K - L := by omega
  rw [fitMk_eq_map, fitMk_eq_map, List.getElem?_map, List.getElem?_map]
  have hsome : (candidateCounts L K)[k - L]? = some k := by
    rw [candidateCounts, List.getElem?_range' _ _ hlt]
    congr 1
    omega
  rw [hsome, Option.map_some', Option.map_some', ht]

theorem monti_C8_witness :
    (2 ∈ candidateCounts 2 4 ∧ trialsW 2 = trialsW 2) ∧
      (fitMk 2 2 4 trialsW)[2 - 2]? = (fitMk 2 2 4 trialsW)[2 - 2]? :=
  ⟨⟨by decide, rfl⟩, (monti_C8 2 2 4 trialsW).2 trialsW trialsW 2 (by decide) rfl⟩

/-- A concrete `fit_from_cfg` trial whose label values have a gap: labels
`{0, 2}`, so `k = len(np.unique(..)) = 2` and label value 2 is skipped. -/
def trialCfgW : Trial 4 := ⟨[0, 1, 2, 3], [0, 2, 2, 0]⟩

/-- C10: in every `fit_from_cfg` trial, with `k` the number of distinct
label values, pairs are accumulated only for label values `< k`: a cluster
whose label value is `≥ k` contributes nothing, and when the label values
are exactly `{0, …, k−1}` every same-cluster unordered pair is counted
exactly once (in one orientation). -/
theorem monti_C10 (N : ℕ) (t : Trial N) (hnd : t.indices.Nodup) :
    (∀ (a b : Fin N) (j : ℕ), (a, j) ∈ t.entries → (b, j) ∈ t.entries →
        distinctCount t ≤ j → a ≠ b →
        accumTrialCfg t (zeroM N) a b = 0 ∧ accumTrialCfg t (zeroM N) b a = 0) ∧
      ((∀ l : ℕ, l ∈ t.labels ↔ l < distinctCount t) →
        ∀ a b : Fin N, a ≠ b →
          accumTrialCfg t (zeroM N) a b + accumTrialCfg t (zeroM N) b a
            = if ∃ j ∈ t.labels, (a, j) ∈ t.entries ∧ (b, j) ∈ t.entries then 1 else 0) := by
  have happ : ∀ a b : Fin N,
      accumTrialCfg t (zeroM N) a b = (clusterPairCount (distinctCount t) t a b : ℚ) := by
    intro a b
    rw [accumTrialCfg, accumTrial_apply]
    simp [zeroM]
  constructor
  · intro a b j hja hjb hk hab
    have hz : clusterPairCount (distinctCount t) t a b
        + clusterPairCount (distinctCount t) t b a = 0 := by
      rw [clusterPairCount_add hnd hab, if_neg]
      rintro ⟨j', hj', hja', hjb'⟩
      have : j' = j := label_unique hnd hja' hja
      omega
    have hz1 : clusterPairCount (distinctCount t) t a b = 0 := by omega
    have hz2 : clusterPairCount (distinctCount t) t b a = 0 := by omega
    rw [happ, happ, hz1, hz2]
    norm_num
  · intro hex a b hab
    rw [happ, happ]
    rw [show ((clusterPairCount (distinctCount t) t a b : ℕ) : ℚ)
          + ((clusterPairCount (distinctCount t) t b a : ℕ) : ℚ)
        = (((clusterPairCount (distinctCount t) t a b
          + clusterPairCount (distinctCount t) t b a : ℕ) : ℚ)) by push_cast; ring]
    rw [clusterPairCount_add hnd hab]
    by_cases hsh : ∃ j ∈ t.labels, (a, j) ∈ t.entries ∧ (b, j) ∈ t.entries
    · rcases hsh with ⟨j, hjl, hja, hjb⟩
      have hjk : j < distinctCount t := (hex j).mp hjl
      rw [if_pos ⟨j, hjk, hja, hjb⟩,
        if_pos ⟨j, hjl, hja, hjb⟩]
      norm_num
    · rw [if_neg fun h => hsh
          ⟨h.choose, (List.of_mem_zip h.choose_spec.2.1).2,
            h.choose_spec.2.1, h.choose_spec.2.2⟩,
        if_neg hsh]
      norm_num

theorem monti_C10_witness :
    trialCfgW.indices.Nodup ∧
      ((∀ (a b : Fin 4) (j : ℕ), (a, j) ∈ trialCfgW.entries → (b, j) ∈ trialCfgW.entries →
          distinctCount trialCfgW ≤ j → a ≠ b →
          accumTrialCfg trialCfgW (zeroM 4) a b = 0 ∧ accumTrialCfg trialCfgW (zeroM 4) b a = 0) ∧
        ((∀ l : ℕ, l ∈ trialCfgW.labels ↔ l < distinctCount trialCfgW) →
          ∀ a b : Fin 4, a ≠ b →
            accumTrialCfg trialCfgW (zeroM 4) a b + accumTrialCfg trialCfgW (zeroM 4) b a
              = if ∃ j ∈ trialCfgW.labels,
                  (a, j) ∈ trialCfgW.entries ∧ (b, j) ∈ trialCfgW.entries then 1 else 0)) :=
  ⟨by decide, monti_C10 4 trialCfgW (by decide)⟩

/-! ## Claim theorems: construction and the predict guard -/

/-- C6 (counterexample): constructing with candidate range upper bound `K = 2`
not exceeding the lower bound `L = 3` (and a valid resample proportion)
succeeds, where the claim requires an `InvalidParameter` failure. -/
theorem monti_C6_counterexample :
    (Monti.init () 3 2 5 (1 / 2)).isOk = true ∧ (2 : ℕ) ≤ 3 := by
  constructor
  · unfold Monti.init
    rw [if_pos (by norm_num : (0 : ℚ) ≤ 1 / 2 ∧ (1 / 2 : ℚ) ≤ 1)]
    rfl
  · omega

/-- C6 (amended): construction fails exactly when `resample_proportion` is
outside `[0, 1]` — the candidate range is not validated, so `K ≤ L` also
constructs — and on success only the configuration is stored, with `Mk`,
`Ak`, `deltaK`, `bestK` unset. -/
theorem monti_C6_amended (c : Unit) (L K H : ℕ) (p : ℚ) :
    ((Monti.init c L K H p).isOk = true ↔ 0 ≤ p ∧ p ≤ 1) ∧
      ∀ e, Monti.init c L K H p = .ok e →
        e.Mk = none ∧ e.Ak = none ∧ e.deltaK = none ∧ e.bestK = none ∧
          e.L = L ∧ e.K = K ∧ e.H = H ∧ e.resampleProportion = p := by
  unfold Monti.init
  by_cases hp : 0 ≤ p ∧ p ≤ 1
  · rw [if_pos hp]
    refine ⟨by simpa [Except.isOk, Except.toBool] using hp, fun e he => ?_⟩
    cases he
    simp
  · rw [if_neg hp]
    exact ⟨by simpa [Except.isOk, Except.toBool] using hp, fun e he => by cases he⟩

theorem monti_C6_amended_witness :
    ((Monti.init () 2 5 3 (1 / 2)).isOk = true ↔ 0 ≤ (1 / 2 : ℚ) ∧ (1 / 2 : ℚ) ≤ 1) ∧
      ∀ e, Monti.init () 2 5 3 (1 / 2) = .ok e →
        e.Mk = none ∧ e.Ak = none ∧ e.deltaK = none ∧ e.bestK = none ∧
          e.L = 2 ∧ e.K = 5 ∧ e.H = 3 ∧ e.resampleProportion = 1 / 2 :=
  monti_C6_amended () 2 5 3 (1 / 2)

/-- The freshly constructed engine used to witness the `fit_from_cfg` path. -/
def e0W : ConsensusCluster :=
  { cluster := (), L := 2, K := 5, H := 1, resampleProportion := 1 / 2,
    Mk := none, Ak := none, deltaK := none, bestK := none, X := none }

/-- One valid `fit_from_cfg` trial on two rows. -/
def tsCfgW : List (Trial 2) := [⟨[0, 1], [0, 0]⟩]

/-- The engine state after `fit_from_cfg` on `tsCfgW`. -/
def e1W : ConsensusCluster :=
  { e0W with X := some (), Mk := some (.single 2 (fitFromCfgMk tsCfgW)) }

/-- C9: after construction followed by a successful `fit_from_cfg` alone,
`Mk` is set while `bestK` is still `None`, so the `predict` guard
(`assert self.Mk is not None`) passes even though `predict` then proceeds
with an unset `bestK`. -/
theorem monti_C9 (N : ℕ) (c : Unit) (L K H : ℕ) (p : ℚ) (ts : List (Trial N))
    (e0 e1 : ConsensusCluster)
    (h0 : Monti.init c L K H p = .ok e0)
    (h1 : fitFromCfg e0 ts = .ok e1) :
    e1.Mk.isSome = true ∧ e1.bestK = none ∧ predictGuard e1 = true := by
  unfold Monti.init at h0
  by_cases hp : 0 ≤ p ∧ p ≤ 1
  · rw [if_pos hp] at h0
    cases h0
    unfold fitFromCfg at h1
    by_cases hdeg : (ts.any fun t => decide (t.indices.length < 2)) = true
    · rw [if_pos hdeg] at h1
      cases h1
    · rw [if_neg hdeg] at h1
      cases h1
      exact ⟨rfl, rfl, rfl⟩
  · rw [if_neg hp] at h0
    cases h0

theorem monti_C9_witness :
    (Monti.init () 2 5 1 (1 / 2) = .ok e0W ∧ fitFromCfg e0W tsCfgW = .ok e1W) ∧
      e1W.Mk.isSome = true ∧ e1W.bestK = none ∧ predictGuard e1W = true := by
  have h0pf : Monti.init () 2 5 1 (1 / 2) = .ok e0W := by
    unfold Monti.init
    rw [if_pos (by norm_num : (0 : ℚ) ≤ 1 / 2 ∧ (1 / 2 : ℚ) ≤ 1)]
    rfl
  have h1pf : fitFromCfg e0W tsCfgW = .ok e1W := by
    unfold fitFromCfg
    rw [if_neg (by decide)]
    rfl
  exact ⟨⟨h0pf, h1pf⟩, monti_C9 2 () 2 5 1 (1 / 2) tsCfgW e0W e1W h0pf h1pf⟩

/-- One valid trial for each candidate count on three rows, drawn at
proportion `0.99` (so `⌈0.99 · 3⌉ = 3` rows per resample). -/
def trials3W : ℕ → List (Trial 3) := fun _ => [⟨[0, 1, 2], [0, 0, 1]⟩]

/-- The concrete resample size of the degenerate-input scenario:
`⌈0.99 · 3⌉ = 3`. -/
lemma resampleSize_99_3 : resampleSize (99 / 100) 3 = 3 := by
  have h : (⌈(99 / 100 : ℚ) * ((3 : ℕ) : ℚ)⌉ : ℤ) = 3 := by
    rw [Int.ceil_eq_iff]
    push_cast
    norm_num
  rw [resampleSize, h]
  rfl

/-- C7: when the resample size is below 2, any executed trial hits the
unguarded pair extraction and `fit` raises; when every draw has at least 2
rows (e.g. `N = 3` at proportion `0.99`, drawing 3 rows) the error is not
raised and `fit` returns the fitted state. -/
theorem monti_C7 (N L K H : ℕ) (p : ℚ) (trials : ℕ → List (Trial N))
    (hLK : L < K) (hH : 0 < H)
    (hlen : ∀ k ∈ candidateCounts L K, (trials k).length = H)
    (hsz : ∀ k ∈ candidateCounts L K, ∀ t ∈ trials k,
      t.indices.length = resampleSize p N) :
    (resampleSize p N < 2 → fitE N L K trials = .error ()) ∧
      (2 ≤ resampleSize p N →
        fitE N L K trials = .ok (fitMk N L K trials, fitAk N L K trials,
          fitDeltaK N L K trials, fitBestK N L K trials)) := by
  have hLmem : L ∈ candidateCounts L K :=
    List.mem_range'_1.mpr ⟨le_refl L, by omega⟩
  constructor
  · intro hlt2
    have hpos : 0 < (trials L).length := by
      rw [hlen L hLmem]
      exact hH
    rcases List.exists_mem_of_ne_nil _ (List.length_pos.mp hpos) with ⟨t, ht⟩
    unfold fitE
    rw [if_pos]
    apply List.any_eq_true.mpr
    refine ⟨L, hLmem, List.any_eq_true.mpr ⟨t, ht, ?_⟩⟩
    simp [hsz L hLmem t ht, hlt2]
  · intro hge2
    unfold fitE
    rw [if_neg]
    intro hcond
    rcases List.any_eq_true.mp hcond with ⟨k, hk, hkany⟩
    rcases List.any_eq_true.mp hkany with ⟨t, ht, htlt⟩
    have hts := hsz k hk t ht
    simp only [decide_eq_true_eq] at htlt
    omega

theorem monti_C7_witness :
    ((2 : ℕ) < 3 ∧ (0 : ℕ) < 1 ∧
      (∀ k ∈ candidateCounts 2 3, (trials3W k).length = 1) ∧
      (∀ k ∈ candidateCounts 2 3, ∀ t ∈ trials3W k,
        t.indices.length = resampleSize (99 / 100) 3)) ∧
      ((resampleSize (99 / 100) 3 < 2 → fitE 3 2 3 trials3W = .error ()) ∧
        (2 ≤ resampleSize (99 / 100) 3 →
          fitE 3 2 3 trials3W = .ok (fitMk 3 2 3 trials3W, fitAk 3 2 3 trials3W,
            fitDeltaK 3 2 3 trials3W, fitBestK 3 2 3 trials3W))) :=
  ⟨⟨by omega, by omega, by decide, by rw [resampleSize_99_3]; decide⟩,
    monti_C7 3 2 3 1 (99 / 100) trials3W (by omega) (by omega) (by decide)
      (by rw [resampleSize_99_3]; decide)⟩

/-! ## `np.argmax` and the maximum of a list -/

lemma foldl_max_assoc (xs : List ℚ) (a b : ℚ) :
    xs.foldl max (max a b) = max a (xs.foldl max b) := by
  induction xs generalizing b with
  | nil => rfl
  | cons c cs ih =>
    rw [List.foldl_cons, max_assoc, ih (max b c), List.foldl_cons]

lemma listMax_cons (x : ℚ) {ys : List ℚ} (h : ys ≠ []) :
    listMax (x :: ys) = max x (listMax ys) := by
  cases ys with
  | nil => exact absurd rfl h
  | cons y ys =>
    show (y :: ys).foldl max x = max x (ys.foldl max y)
    rw [List.foldl_cons, foldl_max_assoc]

lemma le_listMax {l : List ℚ} {v : ℚ} (h : v ∈ l) : v ≤ listMax l := by
  induction l with
  | nil => cases h
  | cons x xs ih =>
    cases xs with
    | nil =>
      rw [List.mem_singleton.mp h]
      exact le_refl _
    | cons y ys =>
      rw [listMax_cons x (by simp)]
      rcases List.mem_cons.mp h with rfl | h
      · exact le_max_left _ _
      · exact le_trans (ih h) (le_max_right _ _)

lemma listArgmax_lt_length {l : List ℚ} (h : l ≠ []) :
    listArgmax l < l.length := by
  induction l with
  | nil => exact absurd rfl h
  | cons x xs ih =>
    cases xs with
    | nil => simp [listArgmax]
    | cons y ys =>
      rw [listArgmax]
      by_cases h1 : listMax (y :: ys) ≤ x
      · rw [if_pos h1]
        simp
      · rw [if_neg h1]
        have := ih (by simp)
        simpa using Nat.succ_lt_succ this

lemma listArgmax_getD {l : List ℚ} (h : l ≠ []) :
    l.getD (listArgmax l) 0 = listMax l := by
  induction l with
  | nil => exact absurd rfl h
  | cons x xs ih =>
    cases xs with
    | nil => rfl
    | cons y ys =>
      rw [listArgmax, listMax_cons x (by simp)]
      by_cases h1 : listMax (y :: ys) ≤ x
      · rw [if_pos h1, max_eq_left h1]
        rfl
      · rw [if_neg h1, max_eq_right (le_of_lt (lt_of_not_le h1))]
        show (y :: ys).getD (listArgmax (y :: ys)) 0 = _
        exact ih (by simp)

lemma listArgmax_first {l : List ℚ} :
    ∀ j < listArgmax l, l.getD j 0 < listMax l := by
  induction l with
  | nil => simp [listArgmax]
  | cons x xs ih =>
    cases xs with
    | nil => simp [listArgmax]
    | cons y ys =>
      intro j hj
      rw [listArgmax] at hj
      by_cases h1 : listMax (y :: ys) ≤ x
      · rw [if_pos h1] at hj
        omega
      · rw [if_neg h1] at hj
        rw [listMax_cons x (by simp),
          max_eq_right (le_of_lt (lt_of_not_le h1))]
        cases j with
        | zero => exact lt_of_not_le h1
        | succ j =>
          show (y :: ys).getD j 0 < _
          exact ih j (by omega)

/-! ## Shapes and entries of `Ak` and `deltaK` -/

lemma fitMk_length (L K : ℕ) (trials : ℕ → List (Trial N)) :
    (fitMk N L K trials).length = K - L := by
  rw [fitMk_eq_map, List.length_map, candidateCounts, List.length_range']

lemma fitAk_length (L K : ℕ) (trials : ℕ → List (Trial N)) :
    (fitAk N L K trials).length = K - L := by
  rw [fitAk, List.length_map, fitMk_length]

lemma deltaOf_length (Ak : List ℚ) (L K : ℕ) :
    (deltaOf Ak L K).length = min (Ak.length - 1) (K - 1 - L) := by
  rw [deltaOf, List.length_map, List.length_zip, List.length_zip,
    List.length_drop, List.length_dropLast, List.length_range', min_self]

lemma fitDeltaK_length (L K : ℕ) (trials : ℕ → List (Trial N)) :
    (fitDeltaK N L K trials).length = K - L - 1 := by
  rw [fitDeltaK, deltaOf_length, fitAk_length]
  omega

lemma deltaOf_getD (Ak : List ℚ) (L K i : ℕ) (hi : i < (deltaOf Ak L K).length) :
    (deltaOf Ak L K).getD i 0
      = if 2 < L + i then (Ak.getD (i + 1) 0 - Ak.getD i 0) / Ak.getD i 0
        else Ak.getD i 0 := by
  have hbounds : i < Ak.length - 1 ∧ i < K - 1 - L := by
    rw [deltaOf_length] at hi
    omega
  have hAi : i < Ak.length := by omega
  have hAi1 : i + 1 < Ak.length := by omega
  have hzz : i < ((Ak.drop 1).zip Ak.dropLast).length := by
    rw [List.length_zip, List.length_drop, List.length_dropLast]
    omega
  have hrg : i < (List.range' L (K - 1 - L)).length := by
    rw [List.length_range']
    omega
  rw [deltaOf] at hi ⊢
  rw [List.getD_eq_getElem _ _ hi, List.getElem_map, List.getElem_zip,
    List.getElem_zip, List.getElem_drop, List.getElem_dropLast, List.getElem_range']
  rw [← List.getD_eq_getElem Ak 0 (show 1 + i < Ak.length by omega),
    ← List.getD_eq_getElem Ak 0 hAi, Nat.add_comm 1 i,
    show L + 1 * i = L + i from by omega]

/-! ## Claim theorems: delta curve and best-K selection -/

/-- C4: `deltaK` has one entry per adjacent pair of candidate counts, and
entry `i` (real count `L + i`) is the raw area `Ak[i]` when `L + i ≤ 2` and
the relative increase `(Ak[i+1] − Ak[i]) / Ak[i]` when `L + i > 2`. -/
theorem monti_C4 (N L K : ℕ) (trials : ℕ → List (Trial N)) (hLK : L < K) :
    ((fitDeltaK N L K trials).length = K - L - 1 ∧
        (fitDeltaK N L K trials).length + L + 1 = K) ∧
      ∀ i < K - L - 1,
        (fitDeltaK N L K trials).getD i 0
          = if L + i ≤ 2 then (fitAk N L K trials).getD i 0
            else ((fitAk N L K trials).getD (i + 1) 0 - (fitAk N L K trials).getD i 0)
              / (fitAk N L K trials).getD i 0 := by
  have hlen := fitDeltaK_length (N := N) L K trials
  refine ⟨⟨hlen, by omega⟩, fun i hi => ?_⟩
  rw [fitDeltaK, deltaOf_getD _ _ _ _ (by rw [← fitDeltaK, hlen]; omega)]
  by_cases hc : L + i ≤ 2
  · rw [if_neg (by omega), if_pos hc]
  · rw [if_pos (by omega), if_neg hc]

theorem monti_C4_witness :
    (2 : ℕ) < 4 ∧
      (((fitDeltaK 2 2 4 trialsW).length = 4 - 2 - 1 ∧
          (fitDeltaK 2 2 4 trialsW).length + 2 + 1 = 4) ∧
        ∀ i < 4 - 2 - 1,
          (fitDeltaK 2 2 4 trialsW).getD i 0
            = if 2 + i ≤ 2 then (fitAk 2 2 4 trialsW).getD i 0
              else ((fitAk 2 2 4 trialsW).getD (i + 1) 0 - (fitAk 2 2 4 trialsW).getD i 0)
                / (fitAk 2 2 4 trialsW).getD i 0) :=
  ⟨by omega, monti_C4 2 2 4 trialsW (by omega)⟩

/-- C3 (counterexample): with `L = K = 2` the constructor succeeds (only the
proportion is checked) and `fit` succeeds — the candidate range is empty, no
trial runs, `deltaK` is empty and `bestK = L = 2` — yet `[L, K) = [2, 2)` is
empty, so `bestK` does not lie within `[L, K)`. -/
theorem monti_C3_counterexample :
    fitE 1 2 2 (fun _ => []) = .ok ([], [], [], 2) ∧
      fitBestK 1 2 2 (fun _ => []) = 2 ∧ ¬ fitBestK 1 2 2 (fun _ => []) < 2 := by
  refine ⟨rfl, rfl, ?_⟩
  intro hlt
  have h2 : fitBestK 1 2 2 (fun _ => []) = 2 := rfl
  rw [h2] at hlt
  omega

/-- C3 (amended): provided the candidate range is nonempty (`L < K`, the
spec's `CandidateRange` invariant, which the constructor does not enforce),
`bestK` is `L` plus the index of the first occurrence of the maximum of
`deltaK` when `deltaK` is nonempty, is `L` when `deltaK` is empty, and lies
within `[L, K)`. -/
theorem monti_C3_amended (N L K : ℕ) (trials : ℕ → List (Trial N)) (hLK : L < K) :
    L ≤ fitBestK N L K trials ∧ fitBestK N L K trials < K ∧
      ((fitDeltaK N L K trials).length = 0 → fitBestK N L K trials = L) ∧
      ((fitDeltaK N L K trials).length ≠ 0 →
        ∃ i < (fitDeltaK N L K trials).length,
          fitBestK N L K trials = L + i ∧
            (∀ j < (fitDeltaK N L K trials).length,
              (fitDeltaK N L K trials).getD j 0 ≤ (fitDeltaK N L K trials).getD i 0) ∧
            ∀ j < i, (fitDeltaK N L K trials).getD j 0 < (fitDeltaK N L K trials).getD i 0) := by
  have hlen := fitDeltaK_length (N := N) L K trials
  by_cases h0 : (fitDeltaK N L K trials).length = 0
  · have hb : fitBestK N L K trials = L := by
      rw [fitBestK, if_neg (by omega)]
    exact ⟨le_of_eq hb.symm, by omega, fun _ => hb, fun hne => absurd h0 hne⟩
  · have hne : fitDeltaK N L K trials ≠ [] := by
      intro h
      rw [h] at h0
      exact h0 rfl
    have hb : fitBestK N L K trials = listArgmax (fitDeltaK N L K trials) + L := by
      rw [fitBestK, if_pos (by omega)]
    have harg : listArgmax (fitDeltaK N L K trials) < (fitDeltaK N L K trials).length :=
      listArgmax_lt_length hne
    refine ⟨by omega, by omega, fun h => absurd h h0, fun _ => ?_⟩
    refine ⟨listArgmax (fitDeltaK N L K trials), harg, by omega, ?_, ?_⟩
    · intro j hj
      rw [listArgmax_getD hne, List.getD_eq_getElem _ _ hj]
      exact le_listMax (List.getElem_mem _)
    · intro j hj
      rw [listArgmax_getD hne]
      exact listArgmax_first j hj

theorem monti_C3_amended_witness :
    (2 : ℕ) < 4 ∧
      (2 ≤ fitBestK 2 2 4 trialsW ∧ fitBestK 2 2 4 trialsW < 4 ∧
        ((fitDeltaK 2 2 4 trialsW).length = 0 → fitBestK 2 2 4 trialsW = 2) ∧
        ((fitDeltaK 2 2 4 trialsW).length ≠ 0 →
          ∃ i < (fitDeltaK 2 2 4 trialsW).length,
            fitBestK 2 2 4 trialsW = 2 + i ∧
              (∀ j < (fitDeltaK 2 2 4 trialsW).length,
                (fitDeltaK 2 2 4 trialsW).getD j 0 ≤ (fitDeltaK 2 2 4 trialsW).getD i 0) ∧
              ∀ j < i, (fitDeltaK 2 2 4 trialsW).getD j 0 < (fitDeltaK 2 2 4 trialsW).getD i 0)) :=
  ⟨by omega, monti_C3_amended 2 2 4 trialsW (by omega)⟩

/-! ## Claim theorems: the stability curve -/

/-- Spec-side reading of the stability curve: the common width of the 10
equal bins over the value range. -/
def specBinWidth (x : List ℚ) : ℚ := (histHiOf x - histLoOf x) / 10

/-- Spec-side reading: the cumulative density up to bin `j` — the cumulative
sum of the density histogram through bin `j`. -/
def specCumulativeDensity (x : List ℚ) (j : ℕ) : ℚ :=
  ((List.range (j + 1)).map fun t =>
    ((x.countP (inBin (histLoOf x) (histHiOf x) t) : ℚ))
      / ((x.length : ℚ) * specBinWidth x)).sum

/-- Spec-side reading of the claim's formula: the area under the empirical
CDF as the sum over the 10 bins of (cumulative density up to that bin) ×
(bin width). -/
def specCdfArea (x : List ℚ) : ℚ :=
  ((List.range 10).map fun j => specCumulativeDensity x j * specBinWidth x).sum

set_option maxHeartbeats 1000000 in
/-- The code path (`np.histogram` edges, `np.cumsum`, and the zipped
generator sum) computes exactly the spec's per-bin formula. -/
lemma AkOf_eq_specCdfArea (x : List ℚ) : AkOf x = specCdfArea x := by
  simp only [AkOf, specCdfArea, specCumulativeDensity, specBinWidth, histEdges, histDensity,
    show List.range 11 = [0, 1, 2, 3, 4, 5, 6, 7, 8, 9, 10] from rfl,
    show List.range 10 = [0, 1, 2, 3, 4, 5, 6, 7, 8, 9] from rfl]
  norm_num [cumsum, cumsumFrom, List.range_succ]
  ring

/-- C5: after any successful `fit` on data with at least one row, each
`Ak[i]` equals the area under the empirical CDF of the flattened consensus
matrix computed from the fixed 10-bin histogram over the value range as
`Σ (cumulative density up to bin j) · (bin width)`.  (`0 < N` keeps the
flattened value list nonempty, the regime in which the embedded
`np.histogram` range rule is faithful.) -/
theorem monti_C5 (N L K : ℕ) (trials : ℕ → List (Trial N)) (_hN : 0 < N) :
    fitAk N L K trials = (fitMk N L K trials).map fun m => specCdfArea (ravel m) := by
  rw [fitAk]
  exact List.map_congr_left fun m _ => AkOf_eq_specCdfArea (ravel m)

theorem monti_C5_witness :
    0 < 2 ∧
      fitAk 2 2 4 trialsW = (fitMk 2 2 4 trialsW).map fun m => specCdfArea (ravel m) :=
  ⟨by omega, monti_C5 2 2 4 trialsW (by omega)⟩

end Monti
